import Mathlib

/-!
Shallow embedding of the PeerChunks repository (a peer-to-peer chunked
file-distribution node written in Rust) and proofs about the claims of its
specification.

Conventions of the embedding:
* bytes are modelled as `Nat` (the code never relies on 8-bit overflow);
* Rust `String`/`&str` values are modelled as `List Char` (wire data and file
  names) or Lean `String` where convenient;
* the filesystem is modelled as explicit state: a directory is a map from
  file name to file contents, a directory listing is the list of entries the
  OS hands back (in an arbitrary order);
* fallible Rust functions returning `Result` are modelled with `Except`.
-/

namespace PeerChunks

/-! ## Generic helpers (modelling Rust std behaviour) -/

/-- Does `pat` occur at the very start of `l`?  Models Rust
`str::starts_with` on the character level. -/
def headMatch : List Char → List Char → Bool
  | [], _ => true
  | _ :: _, [] => false
  | p :: ps, c :: cs => p = c && headMatch ps cs

/-- Remove `pat` from the front of `l`; `none` when `l` does not start with
`pat`.  Models Rust `str::strip_prefix`. -/
def dropHead : List Char → List Char → Option (List Char)
  | [], l => some l
  | _ :: _, [] => none
  | p :: ps, c :: cs => if p = c then dropHead ps cs else none

/-- Remove `pat` from the back of `l`; `none` when `l` does not end with
`pat`.  Models Rust `str::strip_suffix`. -/
def dropTail (pat l : List Char) : Option (List Char) :=
  (dropHead pat.reverse l.reverse).map List.reverse

/-- Does `needle` occur as a contiguous substring of `hay`?  Models Rust
`str::contains` with a string pattern. -/
def containsSub (needle : List Char) : List Char → Bool
  | [] => headMatch needle []
  | hay@(_ :: rest) => headMatch needle hay || containsSub needle rest

/-- Rust `<usize as FromStr>::from_str`: an optional leading `+`, then one or
more decimal digits, nothing else; values `≥ 2^64` overflow and fail
(`usize` is 64-bit on the targets this repository builds for). -/
def parseUsize (s : List Char) : Option Nat :=
  let ds := match s with
    | '+' :: rest => rest
    | other => other
  if ds.isEmpty then none
  else if ds.all Char.isDigit then
    let v := ds.foldl (fun acc c => acc * 10 + (c.toNat - 48)) 0
    if v < 2 ^ 64 then some v else none
  else none

/-- Decimal digits of a natural number, as written by Rust's `Display` for
`usize` (used when the code formats chunk indices and sizes into frames). -/
def natChars (n : Nat) : List Char := (Nat.repr n).toList

/-- Ceiling division on naturals: `ceil (a / b)` for `b > 0`.  The source
computes this as `(a as f64 / b as f64).ceil() as usize`; for every value the
chunker feeds it (`1 ≤ a ≤ b`) the `f64` computation is exact, so the `Nat`
form below agrees with the source on all reachable inputs. -/
def ceilDiv (a b : Nat) : Nat := (a + b - 1) / b

/-! ## Chunker (`src/file_manager/chunker.rs`) -/

/-- Metadata attached to each produced chunk (struct `ChunkMetadata`).
`file_id` abstracts the `Uuid` as an opaque `Nat`. -/
structure ChunkMetadata where
  file_id : Nat
  chunk_index : Nat
  chunk_size : Nat
  total_chunks : Nat
deriving DecidableEq, Repr

/-- The read loop of `split_file_into_chunks`: repeatedly read up to
`chunkSize` bytes from the remaining file contents; stop when a read returns
zero bytes (end of file, or a zero-length read buffer when `chunkSize = 0`).
Each iteration records metadata whose `total_chunks` field is
`ceil(bytes_read / chunk_size)`, exactly as the source computes it.  The
`fuel` argument only bounds the iteration count for structural recursion;
whenever `contents.length < fuel` it never runs out, because each iteration
with `chunkSize > 0` consumes at least one byte. -/
def splitLoop (fid chunkSize : Nat) : Nat → List Nat → Nat → List (ChunkMetadata × List Nat)
  | 0, _, _ => []
  | fuel + 1, contents, idx =>
    if chunkSize = 0 ∨ contents = [] then []
    else
      (⟨fid, idx, (contents.take chunkSize).length,
          ceilDiv (contents.take chunkSize).length chunkSize⟩, contents.take chunkSize) ::
        splitLoop fid chunkSize fuel (contents.drop chunkSize) (idx + 1)

/-- `split_file_into_chunks`: the fresh `Uuid` is abstracted as the
parameter `fid`, the opened file's byte stream as `contents`. -/
def split_file_into_chunks (fid : Nat) (contents : List Nat) (chunkSize : Nat) :
    Nat × List (ChunkMetadata × List Nat) :=
  (fid, splitLoop fid chunkSize (contents.length + 1) contents 0)

/-! ## Chunk store (`src/file_manager/storage.rs`) -/

/-- Errors of the storage layer (enum `StorageError`); `get_chunk` surfaces a
missing chunk file as the wrapped not-found I/O error. -/
inductive StorageError where
  | ioNotFound
deriving DecidableEq, Repr

/-- One per-file storage directory: a map from file name to file contents.
`none` means no file of that name exists. -/
def Dir : Type := String → Option (List Nat)

/-- The chunk file name `chunk_<index>.bin`. -/
def chunkFilename (idx : Nat) : String := "chunk_" ++ Nat.repr idx ++ ".bin"

/-- `save_chunk`: `File::create` truncates or creates the file, `write_all`
writes the whole payload — the directory afterwards maps
`chunk_<metadata.chunk_index>.bin` to exactly `data`, replacing any previous
contents. -/
def save_chunk (d : Dir) (metadata : ChunkMetadata) (data : List Nat) : Dir :=
  fun name => if name = chunkFilename metadata.chunk_index then some data else d name

/-- `get_chunk`: open `chunk_<index>.bin` and read it to the end; a missing
file is the not-found I/O error. -/
def get_chunk (d : Dir) (chunk_index : Nat) : Except StorageError (List Nat) :=
  match d (chunkFilename chunk_index) with
  | some data => .ok data
  | none => .error .ioNotFound

/-- The filename test and parse inside `list_chunks`: keep `is_file` entries
whose name starts with `chunk_` and ends with `.bin` and whose middle parses
as a `usize`. -/
def parseChunkFilename (name : List Char) : Option Nat :=
  match dropHead "chunk_".toList name with
  | none => none
  | some rest =>
    match dropTail ".bin".toList rest with
    | none => none
    | some core => parseUsize core

/-- One directory entry as `list_chunks` sees it: the file name and the
result of `path.is_file()`. -/
def matchEntry (e : List Char × Bool) : Option Nat :=
  if e.2 then parseChunkFilename e.1 else none

/-- `list_chunks`: scan the directory entries (in whatever order the OS
enumerates them), collect the indices of well-formed chunk file names, then
`sort_unstable` ascending. -/
def list_chunks (entries : List (List Char × Bool)) : List Nat :=
  List.insertionSort (· ≤ ·) (entries.filterMap matchEntry)

/-! ## Location index (`src/indexing/dht.rs`)

The `DHT` is an `Arc<Mutex<HashMap<Uuid, Vec<Peer>>>>`; every operation takes
the lock for its whole body, so each call is atomic and the state between
calls is just the map.  The map is modelled as a function from file id to the
optional `Vec` of peers; a `Peer` is its address string (the struct's only
field, and the field `register_file_location` compares). -/

/-- The guarded map inside the `DHT`, generic over the key and peer types
(`Uuid` and the address `String` in the source). -/
def DHTState (FileId Peer : Type) : Type := FileId → Option (List Peer)

/-- `DHT::register_file_location`: ensure the entry exists
(`entry(..).or_insert_with(Vec::new)`), then push the peer unless a peer with
the same address is already recorded. -/
def register_file_location {FileId Peer : Type} [DecidableEq FileId] [DecidableEq Peer]
    (s : DHTState FileId Peer) (file_id : FileId) (peer : Peer) : DHTState FileId Peer :=
  fun k =>
    if k = file_id then
      match s file_id with
      | none => some [peer]
      | some peers => if peer ∈ peers then some peers else some (peers ++ [peer])
    else s k

/-- `DHT::get_file_locations` (the spec's `lookup`). -/
def get_file_locations {FileId Peer : Type} (s : DHTState FileId Peer) (file_id : FileId) :
    Option (List Peer) := s file_id

/-- `DHT::merge_entries` (the spec's `mergeAll`): register every received
`(file_id, address)` pair in order. -/
def merge_entries {FileId Peer : Type} [DecidableEq FileId] [DecidableEq Peer]
    (s : DHTState FileId Peer) (entries : List (FileId × Peer)) : DHTState FileId Peer :=
  entries.foldl (fun st e => register_file_location st e.1 e.2) s

/-! ## Replication engine (`src/file_manager/replication.rs`) -/

/-- The error built by `select_peers_for_replication` when too few peers are
eligible.  The source formats it into a string
`"Not enough peers to replicate chunk {i}. Required: {r}, Available: {a}"`;
the structure below records exactly the three numbers that string reports. -/
structure InsufficientPeers where
  chunkIndex : Nat
  required : Nat
  available : Nat
deriving DecidableEq, Repr

/-- `REPLICATION_FACTOR` constant. -/
def REPLICATION_FACTOR : Nat := 2

/-- A peer is its address string (struct `Peer` in `discovery.rs`). -/
abbrev PeerAddr : Type := List Char

/-- `select_peers_for_replication`: drop peers whose address contains the
file id's string form (the source's self-exclusion heuristic), fail when
fewer than `REPLICATION_FACTOR` remain, otherwise take the first
`REPLICATION_FACTOR` of the filtered list. -/
def select_peers_for_replication (peers : List PeerAddr) (file_id : List Char)
    (chunk_index : Nat) : Except InsufficientPeers (List PeerAddr) :=
  let available := peers.filter fun p => !containsSub file_id p
  if available.length < REPLICATION_FACTOR then
    .error ⟨chunk_index, REPLICATION_FACTOR, available.length⟩
  else
    .ok (available.take REPLICATION_FACTOR)

/-- The chunk loop of `replicate_chunks`: for each chunk index, select the
target peers — a selection error aborts the whole call via `?` — then push
the chunk to each selected peer in turn.  A push is recorded as a
`(chunk index, peer)` pair in `acc`; per the source, an individual push
failure is only logged, so the pair is recorded regardless of network
outcome. -/
def replicateGo (peers : List PeerAddr) (file_id : List Char) :
    List Nat → List (Nat × PeerAddr) → Except InsufficientPeers (List (Nat × PeerAddr))
  | [], acc => .ok acc
  | idx :: rest, acc =>
    match select_peers_for_replication peers file_id idx with
    | .error e => .error e
    | .ok sel => replicateGo peers file_id rest (acc ++ sel.map fun p => (idx, p))

/-- `replicate_chunks`: iterate over chunk indices `0..chunkCount`, where
`chunkCount` is what `get_total_chunks` returns (the length of
`list_chunks` for the file's storage directory). -/
def replicate_chunks (peers : List PeerAddr) (file_id : List Char) (chunkCount : Nat) :
    Except InsufficientPeers (List (Nat × PeerAddr)) :=
  replicateGo peers file_id (List.range chunkCount) []

/-! ## Encryption codec (`src/peer/encryption.rs`)

The AES-256-GCM primitive lives in the external `aes_gcm` crate; the
repository's own code is the hex plumbing and the length checks around it.
The primitive is therefore a parameter of the embedded functions: every
theorem below quantifies over it, which is exactly what "fails before any
cryptographic operation runs" means. -/

/-- Enum `EncryptionError`.  The source's `HexDecodeError` and
`InvalidKeyLength` constructors carry descriptive payloads (the `hex` error
and a message string); the payloads are dropped here, only the variant
matters to the claims. -/
inductive EncryptionError where
  | hexDecodeError
  | invalidKeyLength
  | aesGcmError
deriving DecidableEq, Repr

/-- Value of one hex digit, upper or lower case (as accepted by
`hex::decode`). -/
def hexDigit? (c : Char) : Option Nat :=
  if '0' ≤ c ∧ c ≤ '9' then some (c.toNat - 48)
  else if 'a' ≤ c ∧ c ≤ 'f' then some (c.toNat - 87)
  else if 'A' ≤ c ∧ c ≤ 'F' then some (c.toNat - 55)
  else none

/-- `hex::decode`: fails on odd length or any non-hex character. -/
def hexDecode : List Char → Option (List Nat)
  | [] => some []
  | [_] => none
  | c1 :: c2 :: rest =>
    match hexDigit? c1, hexDigit? c2, hexDecode rest with
    | some a, some b, some bs => some ((16 * a + b) :: bs)
    | _, _, _ => none

/-- `hex::encode`, lower-case. -/
def hexDigitChar (n : Nat) : Char :=
  if n < 10 then Char.ofNat (48 + n) else Char.ofNat (87 + n)

/-- Hex encoding of a byte list (each byte to two lower-case digits). -/
def hexEncode (bs : List Nat) : List Char :=
  bs.foldr (fun b acc => hexDigitChar (b / 16) :: hexDigitChar (b % 16) :: acc) []

/-- `encrypt(data, key)`: decode the key from hex (`?` propagates a
`HexDecodeError`), reject a key that is not 32 bytes, then run the AEAD
primitive under the freshly drawn 12-byte `nonce` (a parameter here, drawn
from `OsRng` in the source) and hex-encode nonce and ciphertext.  `cipherE`
abstracts `Aes256Gcm::encrypt`; its `none` result is the crate's opaque
error, mapped to `AesGcmError`. -/
def encrypt (cipherE : List Nat → List Nat → List Nat → Option (List Nat))
    (nonce : List Nat) (data : List Nat) (key : List Char) :
    Except EncryptionError (List Char × List Char) :=
  match hexDecode key with
  | none => .error .hexDecodeError
  | some key_bytes =>
    if key_bytes.length ≠ 32 then .error .invalidKeyLength
    else
      match cipherE key_bytes nonce data with
      | none => .error .aesGcmError
      | some ciphertext => .ok (hexEncode nonce, hexEncode ciphertext)

/-- `decrypt(nonce_hex, ciphertext_hex, key)`: hex-decode key, nonce and
ciphertext in that order (each `?` propagates a `HexDecodeError`), then the
combined length check `key != 32 || nonce != 12` fails with
`InvalidKeyLength`, then the AEAD primitive runs; its failure (wrong key or
tampered data) is `AesGcmError`. -/
def decrypt (cipherD : List Nat → List Nat → List Nat → Option (List Nat))
    (nonce_hex ciphertext_hex : List Char) (key : List Char) :
    Except EncryptionError (List Nat) :=
  match hexDecode key with
  | none => .error .hexDecodeError
  | some key_bytes =>
    match hexDecode nonce_hex with
    | none => .error .hexDecodeError
    | some nonce_bytes =>
      match hexDecode ciphertext_hex with
      | none => .error .hexDecodeError
      | some ciphertext =>
        if key_bytes.length ≠ 32 ∨ nonce_bytes.length ≠ 12 then
          .error .invalidKeyLength
        else
          match cipherD key_bytes nonce_bytes ciphertext with
          | none => .error .aesGcmError
          | some plaintext => .ok plaintext

/-! ## Connection protocol, server side (`src/peer/connection.rs`)

`handle_connection` writes the encrypted welcome line and `DHT_REQUEST`,
then loops: read bytes into a growing buffer and, while the buffer contains
a `\n`, drain one line and dispatch on its prefix.  The embedding processes
the whole byte sequence the connection will ever deliver, records every
externally visible action as an `Effect`, and uses fuel for the loop (the
theorems hold for every fuel value).  A read that would block forever or hit
a closed stream ends processing with no further effects, exactly as the
source's `?` aborts the task. -/

/-- Everything `handle_connection` can visibly do.  The last three
constructors name the actions the specification's binary-push row calls for
(store the chunk, answer the literal `OK`, trigger replication); they are
part of the vocabulary so that theorems can state whether the handler ever
performs them. -/
inductive Effect where
  | wroteStr (s : List Char)
  | wroteBytes (b : List Nat)
  | mergedDht (es : List (List Char × List Char))
  | loggedDecrypt (ok : Bool)
  | storedChunk (fid : List Char) (idx : Nat) (data : List Nat)
  | wroteOkAck
  | triggeredReplication (fid : List Char)
deriving DecidableEq, Repr

/-- The immutable context a connection task runs with: the chunk-store
lookups it can perform and the decryptability of incoming
`nonce:ciphertext` lines (abstracting the key and cipher). -/
structure ServerCtx where
  storage : List Char → Nat → Option (List Nat)
  canDecrypt : List Char → List Char → Bool

/-- Split a buffer at its first `\n`: the drained line (newline included,
as `buffer.drain(..=pos)` yields it) and the remaining buffer. -/
def splitFirstLine : List Char → Option (List Char × List Char)
  | [] => none
  | c :: cs =>
    if c = '\n' then some ([c], cs)
    else
      match splitFirstLine cs with
      | none => none
      | some (line, rest) => some (c :: line, rest)

/-- Rust `str::trim`: strip leading and trailing whitespace (the source
trims each drained line before matching). -/
def trimChars (l : List Char) : List Char :=
  ((l.dropWhile Char.isWhitespace).reverse.dropWhile Char.isWhitespace).reverse

/-- Split a line on every `':'`, as `line_str.split(':').collect()` does
(an address `host:port` therefore contributes two fields). -/
def splitColon (l : List Char) : List (List Char) :=
  match l with
  | [] => [[]]
  | c :: cs =>
    let rest := splitColon cs
    if c = ':' then [] :: rest
    else
      match rest with
      | [] => [[c]]
      | r :: rs => (c :: r) :: rs

/-- Is `c` a hexadecimal digit (either case)? -/
def isHexChar (c : Char) : Bool :=
  c.isDigit || ('a' ≤ c && c ≤ 'f') || ('A' ≤ c && c ≤ 'F')

/-- Insert the canonical hyphens into a 32-digit hex string. -/
def hyphenate (s : List Char) : List Char :=
  s.take 8 ++ ['-'] ++ (s.drop 8).take 4 ++ ['-'] ++ (s.drop 12).take 4 ++ ['-'] ++
    (s.drop 16).take 4 ++ ['-'] ++ s.drop 20

/-- `Uuid::parse_str` followed by `to_string`, for the two standard textual
forms (hyphenated `8-4-4-4-12` and simple 32-digit): validate and produce
the canonical lower-case hyphenated form.  (The crate also accepts braced
and URN forms, which no peer in this system ever emits.) -/
def parseUuid (s : List Char) : Option (List Char) :=
  if (splitColon s).length = 1 then
    let segs := s.splitOn '-'
    if segs.map List.length = [8, 4, 4, 4, 12] ∧ segs.all (·.all isHexChar) then
      some (s.map Char.toLower)
    else if s.length = 32 ∧ s.all isHexChar then
      some (hyphenate (s.map Char.toLower))
    else none
  else none

/-- The full-index export both `DHT_REQUEST` and `DHT_RESPONSE` handling
write back: a `DHT_RESPONSE:<N>` header line, then one `<fileId>:<address>`
line per entry. -/
def exportLines (d : List (List Char × List Char)) : List Effect :=
  Effect.wroteStr ("DHT_RESPONSE:".toList ++ natChars d.length ++ ['\n']) ::
    d.map fun e => Effect.wroteStr (e.1 ++ [':'] ++ e.2 ++ ['\n'])

/-- Merging received entries into the flattened view of the index: each
pair is appended unless already present (the `register_file_location`
dedup-by-address, seen through `all_entries`). -/
def dhtMergeView (cur : List (List Char × List Char)) :
    List (List Char × List Char) → List (List Char × List Char)
  | [] => cur
  | e :: es => dhtMergeView (if e ∈ cur then cur else cur ++ [e]) es

/-- The `read_line` calls that fetch the `N` entry lines after a
`DHT_RESPONSE:<N>` header: drain one line per entry from the buffer; a line
that is not `uuid:address` (after the full-colon split) is skipped.  `none`
models `read_line` failing because the stream is exhausted — the handler
task aborts with that error. -/
def readEntryLines : Nat → List Char → Option (List (List Char × List Char) × List Char)
  | 0, buf => some ([], buf)
  | n + 1, buf =>
    match splitFirstLine buf with
    | none => none
    | some (line, rest) =>
      match readEntryLines n rest with
      | none => none
      | some (es, rest') =>
        match splitColon (trimChars line) with
        | [a, b] =>
          match parseUuid a with
          | some fid => some ((fid, b) :: es, rest')
          | none => some (es, rest')
        | _ => some (es, rest')

/-- The serving loop of `handle_connection` (lines 34–121 of
`connection.rs`): while a full line is buffered, drain it, trim it and
dispatch on its prefix.  There is no branch that recognises a length-headed
binary frame before line scanning. -/
def serverLoop (ctx : ServerCtx) :
    Nat → List (List Char × List Char) → List Char → List Effect
  | 0, _, _ => []
  | fuel + 1, dht, buf =>
    match splitFirstLine buf with
    | none => []
    | some (line, rest) =>
      let ls := trimChars line
      if headMatch "DHT_RESPONSE:".toList ls then
        match splitColon ls with
        | [_, nStr] =>
          let n := (parseUsize nStr).getD 0
          match readEntryLines n rest with
          | none => []
          | some (es, rest') =>
            let dht' := dhtMergeView dht es
            (Effect.mergedDht es :: exportLines dht') ++ serverLoop ctx fuel dht' rest'
        | _ => serverLoop ctx fuel dht rest
      else if ls = "DHT_REQUEST".toList then
        exportLines dht ++ serverLoop ctx fuel dht rest
      else if headMatch "CHUNK_REQUEST:".toList ls then
        match splitColon ls with
        | [_, fidStr, idxStr] =>
          match parseUuid fidStr, parseUsize idxStr with
          | some fid, some idx =>
            match ctx.storage fid idx with
            | some data =>
              Effect.wroteStr ("CHUNK_RESPONSE:".toList ++ fid ++ [':'] ++ natChars idx
                  ++ [':'] ++ natChars data.length ++ [':'])
                :: Effect.wroteBytes data :: serverLoop ctx fuel dht rest
            | none => serverLoop ctx fuel dht rest
          | _, _ => serverLoop ctx fuel dht rest
        | _ => serverLoop ctx fuel dht rest
      else if headMatch "CHUNK_RESPONSE:".toList ls then
        serverLoop ctx fuel dht rest
      else
        match splitColon ls with
        | [nonceHex, ctHex] =>
          Effect.loggedDecrypt (ctx.canDecrypt nonceHex ctHex) :: serverLoop ctx fuel dht rest
        | _ => serverLoop ctx fuel dht rest

/-- All effects of one `handle_connection` task: the encrypted welcome line
(`welcome` abstracts its hex text), the `DHT_REQUEST` probe, then the
serving loop over every byte the connection delivers. -/
def handle_connection (ctx : ServerCtx) (welcome : List Char)
    (dht : List (List Char × List Char)) (received : List Char) : List Effect :=
  Effect.wroteStr (welcome ++ ['\n']) :: Effect.wroteStr "DHT_REQUEST\n".toList ::
    serverLoop ctx (received.length + 1) dht received

/-- Does an effect belong to the specified binary-push handling (store the
chunk, reply `OK`, trigger replication)? -/
def isPushAction : Effect → Bool
  | .storedChunk _ _ _ => true
  | .wroteOkAck => true
  | .triggeredReplication _ => true
  | _ => false

/-! ## Download destination write (`src/ui/cli.rs`, `download_file`)

The destination is opened with
`OpenOptions::new().create(true).write(true).open(destination)` — there is no
`truncate(true)` — so an existing file keeps its old bytes and the cursor
starts at offset 0; each `write_all` then overwrites in place and advances
the cursor. -/

/-- `write_all` of `data` at byte offset `pos` of a file. -/
def writeAllAt (file : List Nat) (pos : Nat) (data : List Nat) : List Nat :=
  file.take pos ++ data ++ file.drop (pos + data.length)

/-- The download write loop: write each chunk in order, advancing the
cursor. -/
def downloadWriteLoop : List Nat → Nat → List (List Nat) → List Nat
  | file, _, [] => file
  | file, pos, d :: ds => downloadWriteLoop (writeAllAt file pos d) (pos + d.length) ds

/-- Final contents of the destination file after `download_file` writes the
chunk sequence `chunks` over a pre-existing file `existing` (the empty list
when the destination did not exist). -/
def downloadWrite (existing : List Nat) (chunks : List (List Nat)) : List Nat :=
  downloadWriteLoop existing 0 chunks

/-- Does a DHT state record peer `p` for file `fid`?  (Support predicate for
the idempotence proofs.) -/
def holdsEntry {FileId Peer : Type} (s : DHTState FileId Peer) (fid : FileId) (p : Peer) :
    Prop := ∃ l, s fid = some l ∧ p ∈ l

/-! # Theorems -/

theorem splitLoop_succ (fid S fuel : Nat) (l : List Nat) (idx : Nat) :
    splitLoop fid S (fuel + 1) l idx =
      if S = 0 ∨ l = [] then []
      else
        (⟨fid, idx, (l.take S).length, ceilDiv (l.take S).length S⟩, l.take S) ::
          splitLoop fid S fuel (l.drop S) (idx + 1) := rfl

theorem splitLoop_rec {fid S fuel : Nat} {l : List Nat} {idx : Nat} (hS : S ≠ 0)
    (hl : l ≠ []) :
    splitLoop fid S (fuel + 1) l idx =
      (⟨fid, idx, (l.take S).length, ceilDiv (l.take S).length S⟩, l.take S) ::
        splitLoop fid S fuel (l.drop S) (idx + 1) := by
  rw [splitLoop_succ, if_neg]
  simp [hS, hl]

theorem ceilDiv_of_pos {m S : Nat} (hS : 0 < S) (hm : 1 ≤ m) :
    ceilDiv m S = (m - 1) / S + 1 := by
  unfold ceilDiv
  have h : m + S - 1 = (m - 1) + S := by omega
  rw [h, Nat.add_div_right _ hS]

theorem ceilDiv_zero_left {S : Nat} : ceilDiv 0 S = 0 := by
  unfold ceilDiv
  rcases Nat.eq_zero_or_pos S with rfl | hS
  · rfl
  · exact Nat.div_eq_of_lt (by omega)

theorem splitLoop_join {fid S : Nat} (hS : 0 < S) :
    ∀ (fuel : Nat) (l : List Nat) (idx : Nat), l.length < fuel →
      ((splitLoop fid S fuel l idx).map Prod.snd).flatten = l := by
  intro fuel
  induction fuel with
  | zero => intro l idx hl; omega
  | succ n ih =>
    intro l idx hl
    rcases eq_or_ne l [] with rfl | hne
    · simp [splitLoop_succ]
    · rw [splitLoop_rec hS.ne' hne]
      have h1 : 0 < l.length := List.length_pos.mpr hne
      have hlen : (l.drop S).length < n := by
        simp only [List.length_drop]
        omega
      simp only [List.map_cons, List.flatten_cons, ih (l.drop S) (idx + 1) hlen]
      exact List.take_append_drop S l

theorem splitLoop_length {fid S : Nat} (hS : 0 < S) :
    ∀ (fuel : Nat) (l : List Nat) (idx : Nat), l.length < fuel →
      (splitLoop fid S fuel l idx).length = ceilDiv l.length S := by
  intro fuel
  induction fuel with
  | zero => intro l idx hl; omega
  | succ n ih =>
    intro l idx hl
    rcases eq_or_ne l [] with rfl | hne
    · simp [splitLoop_succ, ceilDiv_zero_left]
    · rw [splitLoop_rec hS.ne' hne]
      have h1 : 0 < l.length := List.length_pos.mpr hne
      have hlen : (l.drop S).length < n := by
        simp only [List.length_drop]; omega
      simp only [List.length_cons, ih (l.drop S) (idx + 1) hlen, List.length_drop]
      rw [ceilDiv_of_pos hS h1]
      rcases le_or_lt l.length S with hle | hlt
      · have hz : l.length - S = 0 := by omega
        rw [hz, ceilDiv_zero_left, Nat.div_eq_of_lt (by omega : l.length - 1 < S)]
      · rw [ceilDiv_of_pos hS (by omega)]
        have heq : l.length - 1 = (l.length - S - 1) + S := by omega
        rw [heq, Nat.add_div_right _ hS]

theorem splitLoop_dropLast {fid S : Nat} (hS : 0 < S) :
    ∀ (fuel : Nat) (l : List Nat) (idx : Nat), l.length < fuel →
      ∀ c ∈ (splitLoop fid S fuel l idx).dropLast, c.2.length = S := by
  intro fuel
  induction fuel with
  | zero => intro l idx hl; omega
  | succ n ih =>
    intro l idx hl
    rcases eq_or_ne l [] with rfl | hne
    · simp [splitLoop_succ]
    · rw [splitLoop_rec hS.ne' hne]
      have h1 : 0 < l.length := List.length_pos.mpr hne
      have hlen : (l.drop S).length < n := by
        simp only [List.length_drop]; omega
      rcases eq_or_ne (l.drop S) [] with hdrop | hdrop
      · obtain ⟨m, rfl⟩ : ∃ m, n = m + 1 := ⟨n - 1, by omega⟩
        rw [splitLoop_succ, if_pos (Or.inr hdrop)]
        intro c hc
        simp at hc
      · have hlt : S < l.length := by
          by_contra hcon
          exact hdrop (List.drop_eq_nil_of_le (by omega))
        obtain ⟨m, rfl⟩ : ∃ m, n = m + 1 := ⟨n - 1, by omega⟩
        rw [splitLoop_rec hS.ne' hdrop]
        intro c hc
        rw [List.dropLast_cons₂] at hc
        rcases List.mem_cons.mp hc with rfl | hc
        · simp only [List.length_take]
          omega
        · exact ih (l.drop S) (idx + 1) hlen c (by rw [splitLoop_rec hS.ne' hdrop]; exact hc)

theorem splitLoop_indices {fid S : Nat} (hS : 0 < S) :
    ∀ (fuel : Nat) (l : List Nat) (idx : Nat), l.length < fuel →
      (splitLoop fid S fuel l idx).map (fun c => c.1.chunk_index) =
        List.range' idx (splitLoop fid S fuel l idx).length := by
  intro fuel
  induction fuel with
  | zero => intro l idx hl; omega
  | succ n ih =>
    intro l idx hl
    rcases eq_or_ne l [] with rfl | hne
    · simp [splitLoop_succ]
    · rw [splitLoop_rec hS.ne' hne]
      have h1 : 0 < l.length := List.length_pos.mpr hne
      have hlen : (l.drop S).length < n := by
        simp only [List.length_drop]; omega
      simp only [List.map_cons, List.length_cons, List.range'_succ]
      exact congrArg _ (ih (l.drop S) (idx + 1) hlen)

theorem splitLoop_payload_bounds {fid S : Nat} (hS : 0 < S) :
    ∀ (fuel : Nat) (l : List Nat) (idx : Nat), l.length < fuel →
      ∀ c ∈ splitLoop fid S fuel l idx,
        (1 ≤ c.2.length ∧ c.2.length ≤ S) ∧ c.1.total_chunks = ceilDiv c.2.length S := by
  intro fuel
  induction fuel with
  | zero => intro l idx hl; omega
  | succ n ih =>
    intro l idx hl
    rcases eq_or_ne l [] with rfl | hne
    · simp [splitLoop_succ]
    · rw [splitLoop_rec hS.ne' hne]
      have h1 : 0 < l.length := List.length_pos.mpr hne
      have hlen : (l.drop S).length < n := by
        simp only [List.length_drop]; omega
      intro c hc
      rcases List.mem_cons.mp hc with rfl | hc
      · refine ⟨⟨?_, ?_⟩, rfl⟩ <;> simp only [List.length_take] <;> omega
      · exact ih (l.drop S) (idx + 1) hlen c hc

/-- C1: for every file contents `F` and every chunk size `S > 0`,
`split_file_into_chunks` yields chunks whose payloads concatenated in index
order reproduce `F` exactly, whose count is `ceil(|F| / S)`, all of which
except possibly the last have payload length exactly `S`, and whose recorded
indices are `0, 1, 2, …` in order (0-based and contiguous). -/
theorem c1_split_file_into_chunks_correct (fid : Nat) (contents : List Nat) (S : Nat)
    (hS : 0 < S) :
    ((split_file_into_chunks fid contents S).2.map Prod.snd).flatten = contents ∧
    (split_file_into_chunks fid contents S).2.length = ceilDiv contents.length S ∧
    (∀ c ∈ (split_file_into_chunks fid contents S).2.dropLast, c.2.length = S) ∧
    (split_file_into_chunks fid contents S).2.map (fun c => c.1.chunk_index) =
      List.range (split_file_into_chunks fid contents S).2.length := by
  refine ⟨splitLoop_join hS (contents.length + 1) contents 0 (by omega),
    splitLoop_length hS (contents.length + 1) contents 0 (by omega),
    splitLoop_dropLast hS (contents.length + 1) contents 0 (by omega), ?_⟩
  rw [List.range_eq_range']
  exact splitLoop_indices hS (contents.length + 1) contents 0 (by omega)

/-- Closed instance of `c1_split_file_into_chunks_correct`: a 34-byte file
split with chunk size 5 (the spec's own end-to-end scenario). -/
theorem c1_split_witness :
    (0 < 5) ∧
    (((split_file_into_chunks 7 (List.range 34) 5).2.map Prod.snd).flatten = List.range 34 ∧
     (split_file_into_chunks 7 (List.range 34) 5).2.length = ceilDiv 34 5 ∧
     (∀ c ∈ (split_file_into_chunks 7 (List.range 34) 5).2.dropLast, c.2.length = 5) ∧
     (split_file_into_chunks 7 (List.range 34) 5).2.map (fun c => c.1.chunk_index) =
       List.range (split_file_into_chunks 7 (List.range 34) 5).2.length) :=
  ⟨by decide, by
    have h := c1_split_file_into_chunks_correct 7 (List.range 34) 5 (by decide)
    simpa using h⟩

/-- C9: every chunk's `total_chunks` field is `ceil(own length / chunk
size)`, which is always `1`, and therefore differs from the file's actual
chunk count whenever the file yields more than one chunk. -/
theorem c9_total_chunks_is_one (fid : Nat) (contents : List Nat) (S : Nat) (hS : 0 < S) :
    (∀ c ∈ (split_file_into_chunks fid contents S).2,
      c.1.total_chunks = ceilDiv c.2.length S ∧ c.1.total_chunks = 1) ∧
    (1 < (split_file_into_chunks fid contents S).2.length →
      ∀ c ∈ (split_file_into_chunks fid contents S).2,
        c.1.total_chunks ≠ (split_file_into_chunks fid contents S).2.length) := by
  have key : ∀ c ∈ (split_file_into_chunks fid contents S).2,
      c.1.total_chunks = ceilDiv c.2.length S ∧ c.1.total_chunks = 1 := by
    intro c hc
    have h := splitLoop_payload_bounds hS (contents.length + 1) contents 0 (by omega) c hc
    refine ⟨h.2, ?_⟩
    rw [h.2, ceilDiv_of_pos hS h.1.1, Nat.div_eq_of_lt (by omega), Nat.zero_add]
  refine ⟨key, fun hgt c hc => ?_⟩
  rw [(key c hc).2]
  omega

/-- Closed instance of `c9_total_chunks_is_one`: the 34-byte file split with
chunk size 5 yields 7 chunks, each claiming `total_chunks = 1 ≠ 7`. -/
theorem c9_total_chunks_witness :
    (0 < 5) ∧
    (∀ c ∈ (split_file_into_chunks 7 (List.range 34) 5).2, c.1.total_chunks = 1) ∧
    (∀ c ∈ (split_file_into_chunks 7 (List.range 34) 5).2,
      c.1.total_chunks ≠ (split_file_into_chunks 7 (List.range 34) 5).2.length) :=
  ⟨by decide,
    fun c hc => ((c9_total_chunks_is_one 7 (List.range 34) 5 (by decide)).1 c hc).2,
    fun c hc =>
      (c9_total_chunks_is_one 7 (List.range 34) 5 (by decide)).2 (by decide) c hc⟩

theorem register_self_holds {FileId Peer : Type} [DecidableEq FileId] [DecidableEq Peer]
    (s : DHTState FileId Peer) (fid : FileId) (p : Peer) :
    holdsEntry (register_file_location s fid p) fid p := by
  unfold holdsEntry register_file_location
  rcases hs : s fid with _ | peers
  · exact ⟨[p], by simp [hs], by simp⟩
  · by_cases hp : p ∈ peers
    · exact ⟨peers, by simp [hs, hp], hp⟩
    · exact ⟨peers ++ [p], by simp [hs, hp], by simp⟩

theorem register_eq_of_holds {FileId Peer : Type} [DecidableEq FileId] [DecidableEq Peer]
    {s : DHTState FileId Peer} {fid : FileId} {p : Peer} (h : holdsEntry s fid p) :
    register_file_location s fid p = s := by
  obtain ⟨l, hl, hmem⟩ := h
  funext k
  unfold register_file_location
  by_cases hk : k = fid
  · subst hk
    simp [hl, hmem]
  · simp [hk]

theorem register_holds_mono {FileId Peer : Type} [DecidableEq FileId] [DecidableEq Peer]
    {s : DHTState FileId Peer} {f : FileId} {q : Peer} (h : holdsEntry s f q)
    (fid : FileId) (p : Peer) :
    holdsEntry (register_file_location s fid p) f q := by
  obtain ⟨l, hl, hmem⟩ := h
  unfold holdsEntry register_file_location
  by_cases hk : f = fid
  · subst hk
    rw [hl]
    by_cases hp : p ∈ l
    · exact ⟨l, by simp [hp], hmem⟩
    · exact ⟨l ++ [p], by simp [hp], by simp [hmem]⟩
  · exact ⟨l, by simp [hk, hl], hmem⟩

theorem merge_holds_mono {FileId Peer : Type} [DecidableEq FileId] [DecidableEq Peer] :
    ∀ (es : List (FileId × Peer)) (s : DHTState FileId Peer) (f : FileId) (q : Peer),
      holdsEntry s f q → holdsEntry (merge_entries s es) f q := by
  intro es
  induction es with
  | nil => intro s f q h; exact h
  | cons e t ih =>
    intro s f q h
    exact ih _ f q (register_holds_mono h e.1 e.2)

theorem merge_all_hold {FileId Peer : Type} [DecidableEq FileId] [DecidableEq Peer] :
    ∀ (es : List (FileId × Peer)) (s : DHTState FileId Peer),
      ∀ e ∈ es, holdsEntry (merge_entries s es) e.1 e.2 := by
  intro es
  induction es with
  | nil => intro s e he; simp at he
  | cons a t ih =>
    intro s e he
    rcases List.mem_cons.mp he with rfl | he
    · exact merge_holds_mono t _ e.1 e.2 (register_self_holds s e.1 e.2)
    · exact ih _ e he

theorem merge_eq_of_all_hold {FileId Peer : Type} [DecidableEq FileId] [DecidableEq Peer] :
    ∀ (es : List (FileId × Peer)) (s : DHTState FileId Peer),
      (∀ e ∈ es, holdsEntry s e.1 e.2) → merge_entries s es = s := by
  intro es
  induction es with
  | nil => intro s _; rfl
  | cons a t ih =>
    intro s h
    have ha : register_file_location s a.1 a.2 = s :=
      register_eq_of_holds (h a (List.mem_cons_self a t))
    show merge_entries (register_file_location s a.1 a.2) t = s
    rw [ha]
    exact ih s fun e he => h e (List.mem_cons_of_mem a he)

/-- C4: registering the same `(file id, peer)` pair twice leaves the index —
and hence every `lookup` — exactly as after one registration (no duplicate
address is stored), and merging the same entry sequence twice equals merging
it once. -/
theorem c4_register_merge_idempotent {FileId Peer : Type} [DecidableEq FileId]
    [DecidableEq Peer] (s : DHTState FileId Peer) (fid : FileId) (p : Peer)
    (es : List (FileId × Peer)) :
    register_file_location (register_file_location s fid p) fid p =
      register_file_location s fid p ∧
    (∀ k, get_file_locations (register_file_location (register_file_location s fid p) fid p) k =
      get_file_locations (register_file_location s fid p) k) ∧
    merge_entries (merge_entries s es) es = merge_entries s es := by
  have h1 : register_file_location (register_file_location s fid p) fid p =
      register_file_location s fid p :=
    register_eq_of_holds (register_self_holds s fid p)
  exact ⟨h1, fun k => by rw [h1],
    merge_eq_of_all_hold es (merge_entries s es) (merge_all_hold es s)⟩

/-- C6: saving a chunk and reading the same index back returns the saved
bytes unchanged, also when the write replaced an earlier chunk file at that
index (last write wins). -/
theorem c6_save_get_roundtrip (d : Dir) (metadata : ChunkMetadata) (data prev : List Nat) :
    get_chunk (save_chunk d metadata data) metadata.chunk_index = .ok data ∧
    get_chunk (save_chunk (save_chunk d metadata prev) metadata data) metadata.chunk_index =
      .ok data := by
  constructor <;> simp [get_chunk, save_chunk]

theorem downloadWriteLoop_spec :
    ∀ (ds : List (List Nat)) (file : List Nat) (pos : Nat), pos ≤ file.length →
      downloadWriteLoop file pos ds =
        file.take pos ++ ds.flatten ++ file.drop (pos + ds.flatten.length) := by
  intro ds
  induction ds with
  | nil =>
    intro file pos hpos
    simp [downloadWriteLoop, List.take_append_drop]
  | cons d t ih =>
    intro file pos hpos
    show downloadWriteLoop (writeAllAt file pos d) (pos + d.length) t = _
    have h1 : (file.take pos).length = pos := by
      simp only [List.length_take]
      omega
    have hassoc : writeAllAt file pos d =
        (file.take pos ++ d) ++ file.drop (pos + d.length) := by
      unfold writeAllAt
      rw [List.append_assoc]
    have hl1 : (file.take pos ++ d).length = pos + d.length := by
      simp only [List.length_append, h1]
    have hlen : (writeAllAt file pos d).length = pos + d.length +
        (file.length - (pos + d.length)) := by
      rw [hassoc]
      simp only [List.length_append, List.length_drop, hl1]
    have hle : pos + d.length ≤ (writeAllAt file pos d).length := by omega
    rw [ih _ _ hle]
    have htake : (writeAllAt file pos d).take (pos + d.length) = file.take pos ++ d := by
      rw [hassoc, ← hl1, List.take_left]
    have hdrop : ∀ k, (writeAllAt file pos d).drop (pos + d.length + k) =
        file.drop (pos + d.length + k) := by
      intro k
      rw [hassoc, List.drop_append_eq_append_drop,
        List.drop_eq_nil_of_le (by omega), List.nil_append, hl1, List.drop_drop]
      congr 1
      omega
    rw [htake, hdrop, List.flatten_cons]
    have harith : pos + d.length + t.flatten.length = pos + (d ++ t.flatten).length := by
      simp only [List.length_append]
      omega
    rw [harith]
    simp only [List.append_assoc]

/-- C10: `download_file` opens an existing destination without truncation,
so after writing the reconstructed chunks, every byte of the pre-existing
file beyond the written length is still there: the final contents are the
written bytes followed by the old tail, each old byte at position `i ≥`
written length is unchanged, and the file is not byte-identical to the
reconstructed content. -/
theorem c10_download_no_truncate (existing : List Nat) (chunks : List (List Nat))
    (h : chunks.flatten.length < existing.length) :
    downloadWrite existing chunks = chunks.flatten ++ existing.drop chunks.flatten.length ∧
    (∀ i, chunks.flatten.length ≤ i →
      (downloadWrite existing chunks)[i]? = existing[i]?) ∧
    downloadWrite existing chunks ≠ chunks.flatten := by
  have hmain : downloadWrite existing chunks =
      chunks.flatten ++ existing.drop chunks.flatten.length := by
    unfold downloadWrite
    rw [downloadWriteLoop_spec chunks existing 0 (Nat.zero_le _)]
    simp
  refine ⟨hmain, ?_, ?_⟩
  · intro i hi
    rw [hmain, List.getElem?_append_right hi, List.getElem?_drop]
    congr 1
    omega
  · rw [hmain]
    intro heq
    have hlen := congrArg List.length heq
    simp only [List.length_append, List.length_drop] at hlen
    omega

/-- Closed instance of `c10_download_no_truncate`: writing the single chunk
`[9]` over the pre-existing file `[1, 2, 3]` leaves `[9, 2, 3]`, not `[9]`. -/
theorem c10_download_witness :
    ([9].length < 3) ∧ downloadWrite [1, 2, 3] [[9]] ≠ [9] :=
  ⟨by decide, by
    have h := (c10_download_no_truncate [1, 2, 3] [[9]] (by decide)).2.2
    simpa using h⟩

theorem replicateGo_ok {peers : List PeerAddr} {file_id : List Char}
    (hge : REPLICATION_FACTOR ≤ ((peers.filter fun p => !containsSub file_id p)).length) :
    ∀ (idxs : List Nat) (acc : List (Nat × PeerAddr)),
      replicateGo peers file_id idxs acc =
      .ok (acc ++ (idxs.map fun idx =>
        (((peers.filter fun p => !containsSub file_id p)).take REPLICATION_FACTOR).map
          fun p => (idx, p)).flatten) := by
  intro idxs
  induction idxs with
  | nil => intro acc; simp [replicateGo]
  | cons i t ih =>
    intro acc
    have hsel : select_peers_for_replication peers file_id i =
        .ok (((peers.filter fun p => !containsSub file_id p)).take REPLICATION_FACTOR) := by
      unfold select_peers_for_replication
      rw [if_neg (by omega)]
    show (match select_peers_for_replication peers file_id i with
      | Except.error e => Except.error e
      | Except.ok sel => replicateGo peers file_id t (acc ++ sel.map fun p => (i, p))) = _
    rw [hsel]
    simp only [ih, List.map_cons, List.flatten_cons, List.append_assoc]

/-- C3: when fewer than `REPLICATION_FACTOR = 2` peers survive the
self-exclusion filter (peers whose address contains the file id's string
form are dropped) and at least one chunk is stored, `replicate_chunks`
fails at chunk 0 with the insufficient-peers error carrying the required
and available counts, performing no pushes at all; with at least 2 eligible
peers it succeeds and every chunk is pushed to exactly the first
`REPLICATION_FACTOR` eligible peers. -/
theorem c3_replication_factor_enforced (peers : List PeerAddr) (file_id : List Char)
    (chunkCount : Nat) :
    (((peers.filter fun p => !containsSub file_id p)).length < REPLICATION_FACTOR →
      1 ≤ chunkCount →
      replicate_chunks peers file_id chunkCount =
        .error ⟨0, REPLICATION_FACTOR,
          ((peers.filter fun p => !containsSub file_id p)).length⟩) ∧
    (REPLICATION_FACTOR ≤ ((peers.filter fun p => !containsSub file_id p)).length →
      replicate_chunks peers file_id chunkCount =
        .ok ((List.range chunkCount).map (fun idx =>
          (((peers.filter fun p => !containsSub file_id p)).take REPLICATION_FACTOR).map
            fun p => (idx, p))).flatten ∧
      (((peers.filter fun p => !containsSub file_id p)).take REPLICATION_FACTOR).length =
        REPLICATION_FACTOR) := by
  constructor
  · intro hlt hcnt
    obtain ⟨m, rfl⟩ : ∃ m, chunkCount = m + 1 := ⟨chunkCount - 1, by omega⟩
    unfold replicate_chunks
    rw [List.range_eq_range', List.range'_succ]
    have hsel : select_peers_for_replication peers file_id 0 =
        .error ⟨0, REPLICATION_FACTOR,
          ((peers.filter fun p => !containsSub file_id p)).length⟩ := by
      unfold select_peers_for_replication
      rw [if_pos hlt]
    show (match select_peers_for_replication peers file_id 0 with
      | Except.error e => Except.error e
      | Except.ok sel => replicateGo peers file_id (List.range' 1 m)
          ([] ++ sel.map fun p => (0, p))) = _
    rw [hsel]
  · intro hge
    refine ⟨?_, ?_⟩
    · unfold replicate_chunks
      rw [replicateGo_ok hge (List.range chunkCount) []]
      simp
    · simp only [List.length_take]
      omega

/-- Closed instance of `c3_replication_factor_enforced`: one candidate peer
makes replication of a 1-chunk file fail with required 2 / available 1 and
no pushes; three candidate peers make each of 2 chunks go to exactly the
first two. -/
theorem c3_replication_witness :
    replicate_chunks ["10.0.0.1:1".toList] "zz".toList 1 = .error ⟨0, 2, 1⟩ ∧
    replicate_chunks ["10.0.0.1:1".toList, "10.0.0.2:2".toList, "10.0.0.3:3".toList]
        "zz".toList 2 =
      .ok [(0, "10.0.0.1:1".toList), (0, "10.0.0.2:2".toList),
           (1, "10.0.0.1:1".toList), (1, "10.0.0.2:2".toList)] := by
  constructor
  · have h := (c3_replication_factor_enforced ["10.0.0.1:1".toList] "zz".toList 1).1
      (by decide) (by decide)
    rw [h]
    rfl
  · have h := (c3_replication_factor_enforced
      ["10.0.0.1:1".toList, "10.0.0.2:2".toList, "10.0.0.3:3".toList] "zz".toList 2).2
      (by decide)
    rw [h.1]
    rfl

/-- C8: the error paths of the encryption codec, for every abstract AEAD
primitive (so in particular before and independent of any cryptographic
computation): a hex-decoding failure of any input yields `HexDecodeError`; a
key that decodes to a length other than 32 bytes yields `InvalidKeyLength`
(when all hex inputs decode); and `decrypt` yields `InvalidKeyLength`
whenever the decoded nonce is not exactly 12 bytes. -/
theorem c8_encryption_error_paths
    (cipherE cipherD : List Nat → List Nat → List Nat → Option (List Nat))
    (nonce data : List Nat) (key nHex cHex : List Char) :
    (hexDecode key = none →
      encrypt cipherE nonce data key = .error .hexDecodeError ∧
      decrypt cipherD nHex cHex key = .error .hexDecodeError) ∧
    (∀ kb, hexDecode key = some kb → kb.length ≠ 32 →
      encrypt cipherE nonce data key = .error .invalidKeyLength) ∧
    (∀ kb, hexDecode key = some kb → hexDecode nHex = none →
      decrypt cipherD nHex cHex key = .error .hexDecodeError) ∧
    (∀ kb nb, hexDecode key = some kb → hexDecode nHex = some nb → hexDecode cHex = none →
      decrypt cipherD nHex cHex key = .error .hexDecodeError) ∧
    (∀ kb nb cb, hexDecode key = some kb → hexDecode nHex = some nb →
      hexDecode cHex = some cb → kb.length ≠ 32 →
      decrypt cipherD nHex cHex key = .error .invalidKeyLength) ∧
    (∀ kb nb cb, hexDecode key = some kb → hexDecode nHex = some nb →
      hexDecode cHex = some cb → kb.length = 32 → nb.length ≠ 12 →
      decrypt cipherD nHex cHex key = .error .invalidKeyLength) := by
  refine ⟨?_, ?_, ?_, ?_, ?_, ?_⟩
  · intro h
    constructor <;> simp [encrypt, decrypt, h]
  · intro kb hk hlen
    simp [encrypt, hk, hlen]
  · intro kb hk hn
    simp [decrypt, hk, hn]
  · intro kb nb hk hn hc
    simp [decrypt, hk, hn, hc]
  · intro kb nb cb hk hn hc hlen
    simp only [decrypt, hk, hn, hc]
    rw [if_pos (Or.inl hlen)]
  · intro kb nb cb hk hn hc hklen hnlen
    simp only [decrypt, hk, hn, hc]
    rw [if_pos (Or.inr hnlen)]

/-- Closed instance of `c8_encryption_error_paths`: a non-hex key, a
31-byte key, a non-hex nonce and ciphertext, and a 1-byte nonce under a
valid 32-byte key all fail with the stated errors, for a concrete AEAD
stand-in. -/
theorem c8_encryption_witness :
    (encrypt (fun _ _ d => some d) [0] [1] "zz".toList = .error .hexDecodeError ∧
     decrypt (fun _ _ d => some d) "00".toList "00".toList "zz".toList =
       .error .hexDecodeError) ∧
    encrypt (fun _ _ d => some d) [0] [1] "00".toList = .error .invalidKeyLength ∧
    decrypt (fun _ _ d => some d) "gg".toList "00".toList "00".toList =
      .error .hexDecodeError ∧
    decrypt (fun _ _ d => some d) "00".toList "gg".toList "00".toList =
      .error .hexDecodeError ∧
    decrypt (fun _ _ d => some d) "00".toList "00".toList "00".toList =
      .error .invalidKeyLength ∧
    decrypt (fun _ _ d => some d) "00".toList "00".toList
        (List.replicate 64 '0') = .error .invalidKeyLength := by
  have h1 := (c8_encryption_error_paths (fun _ _ d => some d) (fun _ _ d => some d)
    [0] [1] "zz".toList "00".toList "00".toList).1 (by decide)
  have h2 := (c8_encryption_error_paths (fun _ _ d => some d) (fun _ _ d => some d)
    [0] [1] "00".toList "00".toList "00".toList).2.1 [0] (by decide) (by decide)
  have h3 := (c8_encryption_error_paths (fun _ _ d => some d) (fun _ _ d => some d)
    [0] [1] "00".toList "gg".toList "00".toList).2.2.1 [0] (by decide) (by decide)
  have h4 := (c8_encryption_error_paths (fun _ _ d => some d) (fun _ _ d => some d)
    [0] [1] "00".toList "00".toList "gg".toList).2.2.2.1 [0] [0] (by decide) (by decide)
    (by decide)
  have h5 := (c8_encryption_error_paths (fun _ _ d => some d) (fun _ _ d => some d)
    [0] [1] "00".toList "00".toList "00".toList).2.2.2.2.1 [0] [0] [0] (by decide)
    (by decide) (by decide) (by decide)
  have h6 := (c8_encryption_error_paths (fun _ _ d => some d) (fun _ _ d => some d)
    [0] [1] (List.replicate 64 '0') "00".toList "00".toList).2.2.2.2.2
    (List.replicate 32 0) [0] [0] (by decide) (by decide) (by decide) (by decide)
    (by decide)
  exact ⟨h1, h2, h3, h4, h5, h6⟩

/-- C7 counterexample: a directory can legitimately hold both `chunk_7.bin`
and `chunk_07.bin`; `Rust parse::<usize>` maps both names to index 7 and
`sort_unstable` does not deduplicate, so `list_chunks` returns `[7, 7]` —
the claimed "no duplicates" fails. -/
theorem c7_duplicates_counterexample :
    list_chunks [("chunk_7.bin".toList, true), ("chunk_07.bin".toList, true)] = [7, 7] ∧
    ¬ (list_chunks [("chunk_7.bin".toList, true), ("chunk_07.bin".toList, true)]).Nodup := by
  constructor
  · rfl
  · decide

/-- C7 (amended): `list_chunks` returns the indices parsed from filenames
matching the `chunk_<N>.bin` pattern (ignoring non-matching entries) in
ascending numeric order, and its output does not depend on the order in
which the filesystem enumerates the entries; the output has no duplicates
provided no two distinct filenames parse to the same index (duplicates such
as `chunk_7.bin` / `chunk_07.bin` are possible otherwise). -/
theorem c7_list_chunks_sorted_perm_invariant (entries entries' : List (List Char × Bool))
    (hperm : entries.Perm entries') :
    List.Sorted (· ≤ ·) (list_chunks entries) ∧
    list_chunks entries = list_chunks entries' ∧
    ((entries.filterMap matchEntry).Nodup → (list_chunks entries).Nodup) := by
  refine ⟨List.sorted_insertionSort _ _, ?_, ?_⟩
  · have h1 : (list_chunks entries).Perm (list_chunks entries') :=
      ((List.perm_insertionSort _ _).trans (hperm.filterMap matchEntry)).trans
        (List.perm_insertionSort _ _).symm
    exact List.eq_of_perm_of_sorted h1 (List.sorted_insertionSort _ _)
      (List.sorted_insertionSort _ _)
  · intro hnd
    exact ((List.perm_insertionSort _ _).nodup_iff).mpr hnd

/-- Closed instance of `c7_list_chunks_sorted_perm_invariant`: two chunk
files listed in either order yield the same sorted duplicate-free `[1, 2]`. -/
theorem c7_list_chunks_witness :
    List.Sorted (· ≤ ·)
      (list_chunks [("chunk_2.bin".toList, true), ("chunk_1.bin".toList, true)]) ∧
    list_chunks [("chunk_2.bin".toList, true), ("chunk_1.bin".toList, true)] =
      list_chunks [("chunk_1.bin".toList, true), ("chunk_2.bin".toList, true)] ∧
    (list_chunks [("chunk_2.bin".toList, true), ("chunk_1.bin".toList, true)]).Nodup := by
  have h := c7_list_chunks_sorted_perm_invariant
    [("chunk_2.bin".toList, true), ("chunk_1.bin".toList, true)]
    [("chunk_1.bin".toList, true), ("chunk_2.bin".toList, true)]
    (List.Perm.swap _ _ _)
  exact ⟨h.1, h.2.1, h.2.2 (by decide)⟩

theorem exportLines_no_push (d : List (List Char × List Char)) :
    ((exportLines d).all fun e => !isPushAction e) = true := by
  unfold exportLines
  rw [List.all_cons]
  refine (Bool.and_eq_true _ _).mpr ⟨rfl, ?_⟩
  rw [List.all_eq_true]
  intro e he
  obtain ⟨x, hx, rfl⟩ := List.mem_map.mp he
  rfl

theorem serverLoop_no_push (ctx : ServerCtx) :
    ∀ (fuel : Nat) (dht : List (List Char × List Char)) (buf : List Char),
      ((serverLoop ctx fuel dht buf).all fun e => !isPushAction e) = true := by
  intro fuel
  induction fuel with
  | zero => intro dht buf; rfl
  | succ n ih =>
    intro dht buf
    simp only [serverLoop]
    repeat' split
    all_goals try simp only [List.all_append, List.all_cons, ih, exportLines_no_push]
    all_goals rfl

/-- C2: contrary to the specified binary-push row, the server-side protocol
loop of `handle_connection` never stores a chunk, never replies the 2-byte
`OK`, and never triggers the replication engine — for every context, index
state and received byte sequence, none of its effects is one of those three
actions; in particular a buffer holding exactly a binary push frame
`<fileId>:<index>:<size>:` + raw bytes (which contains no newline) is never
processed at all: the loop emits no effect for it. -/
theorem c2_binary_push_not_handled (ctx : ServerCtx) (welcome : List Char)
    (dht : List (List Char × List Char)) (received : List Char) :
    ((handle_connection ctx welcome dht received).all fun e => !isPushAction e) = true ∧
    serverLoop ctx ("aaaaaaaa-aaaa-aaaa-aaaa-aaaaaaaaaaaa:0:2:hi".toList.length + 1) dht
      "aaaaaaaa-aaaa-aaaa-aaaa-aaaaaaaaaaaa:0:2:hi".toList = [] := by
  constructor
  · unfold handle_connection
    rw [List.all_cons, List.all_cons, serverLoop_no_push]
    rfl
  · rfl

end PeerChunks
